import Mathlib

/-!
Verification of the `text_io` byte-scanner core: a shallow embedding of
`src/lib.rs` (the `Error` type, `match_next`, `parse_capture`, and the
expansion of the `try_scan!` macro) as executable Lean definitions over
byte lists, together with theorems settling the specification claims.

Bytes are modelled as `Nat`; the mutable byte iterators of the Rust code
are modelled by explicit state passing: each consuming operation returns
its result together with the remaining stream.
-/

namespace TextIO

/-- The error enum from `src/lib.rs` (`__NonExhaustive__` is a hidden,
unconstructible variant and is omitted). `Parse` carries the decoded text
as a byte list. -/
inductive Error where
  | MissingMatch
  | MissingClosingBrace
  | UnexpectedValue (expected : Nat) (actual : Option Nat)
  | InvalidUtf8 (raw : List Nat)
  | PartialUtf8 (n : Nat) (raw : List Nat)
  | Parse (s : List Nat) (name : String)
deriving Repr, DecidableEq

/-- `static WHITESPACES: &[u8] = b"\t\r\n "` from `parse_capture`. -/
def WHITESPACES : List Nat := [9, 13, 10, 32]

/-- `WHITESPACES.contains(ch)`. -/
def isWs (b : Nat) : Bool := WHITESPACES.contains b

/-- A UTF-8 continuation byte (`0x80..=0xBF`). -/
def isCont (b : Nat) : Bool := decide (0x80 ≤ b ∧ b ≤ 0xBF)

/-- Whether a byte list is exactly one well-formed UTF-8 encoded character,
following the table used by `std::str::from_utf8` (no overlongs, no
surrogates, max `U+10FFFF`). -/
def isUtf8Char : List Nat → Bool
  | [b0] => decide (b0 < 0x80)
  | [b0, b1] => decide (0xC2 ≤ b0 ∧ b0 ≤ 0xDF) && isCont b1
  | [b0, b1, b2] =>
      ((decide (b0 = 0xE0) && decide (0xA0 ≤ b1 ∧ b1 ≤ 0xBF)) ||
       (decide (0xE1 ≤ b0 ∧ b0 ≤ 0xEC) && isCont b1) ||
       (decide (b0 = 0xED) && decide (0x80 ≤ b1 ∧ b1 ≤ 0x9F)) ||
       (decide (0xEE ≤ b0 ∧ b0 ≤ 0xEF) && isCont b1)) && isCont b2
  | [b0, b1, b2, b3] =>
      ((decide (b0 = 0xF0) && decide (0x90 ≤ b1 ∧ b1 ≤ 0xBF)) ||
       (decide (0xF1 ≤ b0 ∧ b0 ≤ 0xF3) && isCont b1) ||
       (decide (b0 = 0xF4) && decide (0x80 ≤ b1 ∧ b1 ≤ 0x8F))) &&
      isCont b2 && isCont b3
  | _ => false

/-- `Utf8Error::valid_up_to()` of `std::str::from_utf8` on the byte list:
the greedy character-by-character decoder runs until the first position
where no well-formed character starts, and returns that position. Since
the first byte of a well-formed character determines its width, trying
the four widths in order is equivalent to the width-table dispatch the
Rust validator performs. -/
def utf8ValidUpTo : List Nat → Nat
  | [] => 0
  | b0 :: r0 =>
    if isUtf8Char [b0] then 1 + utf8ValidUpTo r0
    else match r0 with
      | [] => 0
      | b1 :: r1 =>
        if isUtf8Char [b0, b1] then 2 + utf8ValidUpTo r1
        else match r1 with
          | [] => 0
          | b2 :: r2 =>
            if isUtf8Char [b0, b1, b2] then 3 + utf8ValidUpTo r2
            else match r2 with
              | [] => 0
              | b3 :: r3 =>
                if isUtf8Char [b0, b1, b2, b3] then 4 + utf8ValidUpTo r3 else 0

/-- Declarative UTF-8 validity: the byte list splits into a sequence of
well-formed UTF-8 characters. -/
def utf8Valid : List Nat → Bool
  | [] => true
  | b0 :: r0 =>
    (isUtf8Char [b0] && utf8Valid r0) ||
    (match r0 with
     | [] => false
     | b1 :: r1 =>
       (isUtf8Char [b0, b1] && utf8Valid r1) ||
       (match r1 with
        | [] => false
        | b2 :: r2 =>
          (isUtf8Char [b0, b1, b2] && utf8Valid r2) ||
          (match r2 with
           | [] => false
           | b3 :: r3 => isUtf8Char [b0, b1, b2, b3] && utf8Valid r3)))

/-- The `String::from_utf8` step of `parse_capture` (lines 115-126):
full validity yields the text, otherwise `n = e.utf8_error().valid_up_to()`
selects `InvalidUtf8` (`n = 0`) or `PartialUtf8(n, raw)` (`n > 0`). -/
def decode_utf8 (raw : List Nat) : Except Error (List Nat) :=
  if utf8ValidUpTo raw = raw.length then .ok raw
  else if utf8ValidUpTo raw = 0 then .error (.InvalidUtf8 raw)
  else .error (.PartialUtf8 (utf8ValidUpTo raw) raw)

/-- `match_next` (lines 90-96): pulls one item from the stream and
compares it with the expected byte. The second component is the stream
after the one pull. -/
def match_next (expected : Nat) (s : List Nat) : Except Error Unit × List Nat :=
  match s with
  | [] => (.error (.UnexpectedValue expected none), [])
  | b :: rest =>
    (if b = expected then .ok () else .error (.UnexpectedValue expected (some b)), rest)

/-- The extraction phase of `parse_capture` (lines 107-114).
With `some c`: `iter.take_while(|&ch| ch != c)` — the element failing the
predicate (the delimiter) is pulled and discarded by `take_while`, so the
remaining stream starts after it. With `none`:
`iter.skip_while(ws).take_while(!ws)` — leading whitespace is discarded,
the non-whitespace run is collected, and the terminating whitespace byte
(if any) is pulled and discarded by `take_while`. -/
def captureRaw (next : Option Nat) (s : List Nat) : List Nat × List Nat :=
  match next with
  | some c =>
    ((s.takeWhile fun ch => !(ch == c)), ((s.dropWhile fun ch => !(ch == c)).drop 1))
  | none =>
    ((s.dropWhile fun ch => isWs ch).takeWhile (fun ch => !(isWs ch)),
     (((s.dropWhile fun ch => isWs ch).dropWhile fun ch => !(isWs ch)).drop 1))

/-- `parse_capture` (lines 98-127), generic over the target type through a
caller-supplied conversion `conv` modelling `FromStr` (`none` = parse
failure). Returns the result together with the remaining stream. -/
def parse_capture (conv : List Nat → Option τ) (nm : String) (next : Option Nat)
    (s : List Nat) : Except Error τ × List Nat :=
  let r := captureRaw next s
  match decode_utf8 r.1 with
  | .ok txt =>
    match conv txt with
    | some v => (.ok v, r.2)
    | none => (.error (.Parse txt nm), r.2)
  | .error e => (.error e, r.2)

/-- One iteration block of the per-argument `loop` in the `try_scan!`
macro (lines 210-219): pattern bytes are consumed until a capture is
opened. `{` then end-of-pattern is `MissingClosingBrace`; `{{` matches a
literal `{` against the stream; `{}` opens a capture whose delimiter is
the next pattern byte (`pattern.next()`), consumed from the pattern; `{`
followed by any other byte is `MissingClosingBrace`; any other byte is
matched literally. On success returns the captured value, the remaining
pattern and the remaining stream. -/
def scanSlot (conv : List Nat → Option τ) (nm : String) :
    List Nat → List Nat → Except Error (τ × List Nat × List Nat)
  | [], _ => .error .MissingMatch
  | c :: p, s =>
    if c = 123 then
      match p with
      | [] => .error .MissingClosingBrace
      | d :: p2 =>
        if d = 123 then
          match match_next 123 s with
          | (.ok _, s2) => scanSlot conv nm p2 s2
          | (.error e, _) => .error e
        else if d = 125 then
          match parse_capture conv nm p2.head? s with
          | (.ok v, s2) => .ok (v, p2.drop 1, s2)
          | (.error e, _) => .error e
        else .error .MissingClosingBrace
    else
      match match_next c s with
      | (.ok _, s2) => scanSlot conv nm p s2
      | (.error e, _) => .error e

/-- The `$( $arg = loop { ... }; )*` sequence: one `scanSlot` per
caller-required slot, left to right. `nm i` is the `stringify!($arg)`
name of slot `i`. -/
def scanSlots (conv : List Nat → Option τ) (nm : Nat → String) :
    Nat → List Nat → List Nat → Except Error (List τ × List Nat × List Nat)
  | 0, p, s => .ok ([], p, s)
  | k + 1, p, s =>
    match scanSlot conv (nm 0) p s with
    | .error e => .error e
    | .ok (v, p2, s2) =>
      match scanSlots conv (fun i => nm (i + 1)) k p2 s2 with
      | .error e => .error e
      | .ok (vs, p3, s3) => .ok (v :: vs, p3, s3)

/-- The trailing loop `for c in pattern { match_next(c, stdin)? }`
(lines 222-224): every leftover pattern byte is matched literally. -/
def matchTail : List Nat → List Nat → Except Error (List Nat)
  | [], s => .ok s
  | c :: p, s =>
    match match_next c s with
    | (.ok _, s2) => matchTail p s2
    | (.error e, _) => .error e

/-- The full `try_scan!` expansion (lines 200-227) for `k` slots of one
type: the per-slot loops followed by the trailing literal loop. Returns
the slot values and the remaining stream. -/
def try_scan (conv : List Nat → Option τ) (nm : Nat → String) (k : Nat)
    (p s : List Nat) : Except Error (List τ × List Nat) :=
  match scanSlots conv nm k p s with
  | .error e => .error e
  | .ok (vs, p2, s2) =>
    match matchTail p2 s2 with
    | .error e => .error e
    | .ok s3 => .ok (vs, s3)

/-- Number of capture markers the tokenizer would recognize in a pattern:
`{{` is a literal, `{}` opens a capture and additionally consumes the
following pattern byte (the delimiter); a malformed `{` stops
tokenization. -/
def markerCount : List Nat → Nat
  | [] => 0
  | c :: p =>
    if c = 123 then
      match p with
      | [] => 0
      | d :: p2 =>
        if d = 123 then markerCount p2
        else if d = 125 then
          1 + (match p2 with
               | [] => 0
               | _ :: p3 => markerCount p3)
        else 0
    else markerCount p

/-- Whether the tokenizer would hit a malformed capture marker in the
pattern: a `{` as the last byte, or a `{` followed by a byte other than
`{` or `}`. -/
def badBracePattern : List Nat → Bool
  | [] => false
  | c :: p =>
    if c = 123 then
      match p with
      | [] => true
      | d :: p2 =>
        if d = 123 then badBracePattern p2
        else if d = 125 then
          (match p2 with
           | [] => false
           | _ :: p3 => badBracePattern p3)
        else true
    else badBracePattern p

/-- A literal pattern segment in which every `{` is escaped as `{{` and
no `}` occurs at all (so formatting leaves it unchanged apart from the
brace unescaping). -/
def okLit : List Nat → Bool
  | [] => true
  | c :: p =>
    if c = 123 then
      match p with
      | [] => false
      | d :: p2 => decide (d = 123) && okLit p2
    else if c = 125 then false
    else okLit p

/-- The rendering of a literal pattern segment: `{{` becomes `{`,
everything else is itself. -/
def unescapeLit : List Nat → List Nat
  | [] => []
  | [c] => [c]
  | c :: d :: p =>
    if c = 123 && d = 123 then 123 :: unescapeLit p
    else c :: unescapeLit (d :: p)

/-- Modelled from the spec: the formatted-print operation (`format!`) that
the scanner inverts is not part of this repository; per the spec the
system "is the textual inverse of a formatted-print operation" and the
round-trip property formats a value into the pattern. `formatPattern`
renders a pattern with the value text substituted at each `{}`, `{{` as
`{`, `}}` as `}`, and rejects lone braces (which `format!` refuses). -/
def formatPattern (text : List Nat) : List Nat → Option (List Nat)
  | [] => some []
  | [c] => if c = 123 || c = 125 then none else some [c]
  | c :: d :: p =>
    if c = 123 then
      if d = 123 then (formatPattern text p).map (fun r => 123 :: r)
      else if d = 125 then (formatPattern text p).map (fun r => text ++ r)
      else none
    else if c = 125 then
      if d = 125 then (formatPattern text p).map (fun r => 125 :: r) else none
    else (formatPattern text (d :: p)).map (fun r => c :: r)

/-! ## Helper lemmas about the stream primitives -/

theorem match_next_err {expected : Nat} {s : List Nat} {e : Error}
    (h : (match_next expected s).1 = .error e) :
    ∃ act, e = .UnexpectedValue expected act := by
  cases s with
  | nil => exact ⟨none, by simpa [match_next] using h.symm⟩
  | cons b rest =>
    by_cases hb : b = expected
    · simp [match_next, hb] at h
    · exact ⟨some b, by simpa [match_next, hb] using h.symm⟩

theorem matchTail_err {p s : List Nat} {e : Error}
    (h : matchTail p s = .error e) :
    ∃ exp act, e = .UnexpectedValue exp act := by
  induction p generalizing s with
  | nil => simp [matchTail] at h
  | cons c p ih =>
    rw [matchTail] at h
    cases hm : match_next c s with
    | mk r s2 =>
      cases r with
      | ok u => rw [hm] at h; exact ih h
      | error e2 =>
        rw [hm] at h
        obtain ⟨act, hact⟩ := match_next_err (e := e2) (by rw [hm])
        cases h
        exact ⟨c, act, hact⟩

theorem matchTail_ok_of_append (p t : List Nat) :
    matchTail p (p ++ t) = .ok t := by
  induction p with
  | nil => simp [matchTail]
  | cons c p ih => simp [matchTail, match_next, ih]

theorem matchTail_ok_iff {p s : List Nat} {t : List Nat} :
    matchTail p s = .ok t ↔ s = p ++ t := by
  constructor
  · intro h
    induction p generalizing s with
    | nil => simpa [matchTail] using h
    | cons c p ih =>
      cases s with
      | nil => simp [matchTail, match_next] at h
      | cons b s2 =>
        by_cases hb : b = c
        · subst hb
          rw [matchTail] at h
          simp only [match_next, if_pos rfl] at h
          simpa using ih h
        · rw [matchTail] at h
          simp [match_next, hb] at h
  · rintro rfl
    exact matchTail_ok_of_append p t

theorem decode_utf8_err {raw : List Nat} {e : Error} (h : decode_utf8 raw = .error e) :
    e = .InvalidUtf8 raw ∨ e = .PartialUtf8 (utf8ValidUpTo raw) raw := by
  unfold decode_utf8 at h
  split_ifs at h <;> simp_all

theorem parse_capture_err {τ : Type} {conv : List Nat → Option τ}
    {nm : String} {next : Option Nat} {s : List Nat} {e : Error}
    (h : (parse_capture conv nm next s).1 = .error e) :
    e ≠ .MissingMatch ∧ e ≠ .MissingClosingBrace := by
  simp only [parse_capture] at h
  split at h
  · split at h
    · simp at h
    · simp only at h
      cases h
      simp
  · rename_i e2 heq
    simp only at h
    cases h
    rcases decode_utf8_err heq with h2 | h2 <;> (cases h2; simp)

/-! ## Reduction lemmas for the per-slot scanner and the pattern measures -/

theorem scanSlot_brace_nil {τ : Type} (conv : List Nat → Option τ) (nm : String)
    (s : List Nat) : scanSlot conv nm [123] s = .error .MissingClosingBrace := rfl

theorem scanSlot_esc {τ : Type} (conv : List Nat → Option τ) (nm : String)
    (p s : List Nat) :
    scanSlot conv nm (123 :: 123 :: p) s =
      match match_next 123 s with
      | (.ok _, s2) => scanSlot conv nm p s2
      | (.error e, _) => .error e := rfl

theorem scanSlot_cap {τ : Type} (conv : List Nat → Option τ) (nm : String)
    (p s : List Nat) :
    scanSlot conv nm (123 :: 125 :: p) s =
      match parse_capture conv nm p.head? s with
      | (.ok v, s2) => .ok (v, p.drop 1, s2)
      | (.error e, _) => .error e := rfl

theorem scanSlot_badbrace {τ : Type} (conv : List Nat → Option τ) (nm : String)
    {d : Nat} (p s : List Nat) (hd1 : d ≠ 123) (hd2 : d ≠ 125) :
    scanSlot conv nm (123 :: d :: p) s = .error .MissingClosingBrace := by
  rw [scanSlot.eq_def]
  simp [hd1, hd2]

theorem scanSlot_lit {τ : Type} (conv : List Nat → Option τ) (nm : String)
    {c : Nat} (p s : List Nat) (hc : c ≠ 123) :
    scanSlot conv nm (c :: p) s =
      match match_next c s with
      | (.ok _, s2) => scanSlot conv nm p s2
      | (.error e, _) => .error e := by
  rw [scanSlot.eq_def]
  simp [hc]

theorem markerCount_esc (p : List Nat) :
    markerCount (123 :: 123 :: p) = markerCount p := by
  rw [markerCount.eq_def]
  simp

theorem markerCount_cap (p : List Nat) :
    markerCount (123 :: 125 :: p) = 1 + markerCount (p.drop 1) := by
  cases p <;> rfl

theorem markerCount_bad {d : Nat} (p : List Nat) (hd1 : d ≠ 123) (hd2 : d ≠ 125) :
    markerCount (123 :: d :: p) = 0 := by
  rw [markerCount.eq_def]
  simp [hd1, hd2]

theorem markerCount_lit {c : Nat} (p : List Nat) (hc : c ≠ 123) :
    markerCount (c :: p) = markerCount p := by
  rw [markerCount.eq_def]
  simp [hc]

theorem badBrace_esc (p : List Nat) :
    badBracePattern (123 :: 123 :: p) = badBracePattern p := by
  rw [badBracePattern.eq_def]
  simp

theorem badBrace_cap (p : List Nat) :
    badBracePattern (123 :: 125 :: p) = badBracePattern (p.drop 1) := by
  cases p <;> rfl

theorem badBrace_lit {c : Nat} (p : List Nat) (hc : c ≠ 123) :
    badBracePattern (c :: p) = badBracePattern p := by
  rw [badBracePattern.eq_def]
  simp [hc]

/-! ## Behaviour of one slot scan with respect to the pattern measures -/

theorem scanSlot_err_mm {τ : Type} {conv : List Nat → Option τ} {nm : String} :
    ∀ {p s : List Nat}, scanSlot conv nm p s = .error .MissingMatch →
      markerCount p = 0 := by
  intro p s h
  induction p, s using scanSlot.induct conv nm with
  | case1 s => rfl
  | case2 s =>
    rw [scanSlot_brace_nil] at h
    simp at h
  | case3 s r3 a s2 x ih1 =>
    rw [scanSlot_esc, x] at h
    rw [markerCount_esc]
    exact ih1 h
  | case4 s r3 e snd x =>
    rw [scanSlot_esc, x] at h
    obtain ⟨act, ha⟩ := match_next_err (e := e) (by rw [x])
    simp [ha] at h
  | case5 s r3 v s2 x h5 =>
    rw [scanSlot_cap, x] at h
    simp at h
  | case6 s r3 e snd x h6 =>
    rw [scanSlot_cap, x] at h
    simp only [Except.error.injEq] at h
    exact absurd h (parse_capture_err (e := e) (by rw [x])).1
  | case7 s b3 r3 h1 h2 =>
    rw [scanSlot_badbrace _ _ _ _ h1 h2] at h
    simp at h
  | case8 c p s hc a s2 x ih1 =>
    rw [scanSlot_lit _ _ _ _ hc, x] at h
    rw [markerCount_lit _ hc]
    exact ih1 h
  | case9 c p s hc e snd x =>
    rw [scanSlot_lit _ _ _ _ hc, x] at h
    obtain ⟨act, ha⟩ := match_next_err (e := e) (by rw [x])
    simp [ha] at h

theorem scanSlot_err_mcb {τ : Type} {conv : List Nat → Option τ} {nm : String} :
    ∀ {p s : List Nat}, scanSlot conv nm p s = .error .MissingClosingBrace →
      badBracePattern p = true := by
  intro p s h
  induction p, s using scanSlot.induct conv nm with
  | case1 s => simp [scanSlot] at h
  | case2 s => rfl
  | case3 s r3 a s2 x ih1 =>
    rw [scanSlot_esc, x] at h
    rw [badBrace_esc]
    exact ih1 h
  | case4 s r3 e snd x =>
    rw [scanSlot_esc, x] at h
    obtain ⟨act, ha⟩ := match_next_err (e := e) (by rw [x])
    simp [ha] at h
  | case5 s r3 v s2 x h5 =>
    rw [scanSlot_cap, x] at h
    simp at h
  | case6 s r3 e snd x h6 =>
    rw [scanSlot_cap, x] at h
    simp only [Except.error.injEq] at h
    exact absurd h (parse_capture_err (e := e) (by rw [x])).2
  | case7 s b3 r3 h1 h2 =>
    rw [badBracePattern.eq_def]
    simp [h1, h2]
  | case8 c p s hc a s2 x ih1 =>
    rw [scanSlot_lit _ _ _ _ hc, x] at h
    rw [badBrace_lit _ hc]
    exact ih1 h
  | case9 c p s hc e snd x =>
    rw [scanSlot_lit _ _ _ _ hc, x] at h
    obtain ⟨act, ha⟩ := match_next_err (e := e) (by rw [x])
    simp [ha] at h

theorem scanSlot_ok_marker {τ : Type} {conv : List Nat → Option τ} {nm : String}
    {v : τ} {p2 s2 : List Nat} :
    ∀ {p s : List Nat}, scanSlot conv nm p s = .ok (v, p2, s2) →
      markerCount p = 1 + markerCount p2 ∧ badBracePattern p = badBracePattern p2 := by
  intro p s h
  induction p, s using scanSlot.induct conv nm with
  | case1 s => simp [scanSlot] at h
  | case2 s => rw [scanSlot_brace_nil] at h; simp at h
  | case3 s r3 a s2x x ih1 =>
    rw [scanSlot_esc, x] at h
    rw [markerCount_esc, badBrace_esc]
    exact ih1 h
  | case4 s r3 e snd x =>
    rw [scanSlot_esc, x] at h
    simp at h
  | case5 s r3 vv s2x x h5 =>
    rw [scanSlot_cap, x] at h
    simp only [Except.ok.injEq, Prod.mk.injEq] at h
    obtain ⟨hv, hp, hs⟩ := h
    rw [markerCount_cap, badBrace_cap, hp]
    exact ⟨rfl, rfl⟩
  | case6 s r3 e snd x h6 =>
    rw [scanSlot_cap, x] at h
    simp at h
  | case7 s b3 r3 h1 h2 =>
    rw [scanSlot_badbrace _ _ _ _ h1 h2] at h
    simp at h
  | case8 c p s hc a s2x x ih1 =>
    rw [scanSlot_lit _ _ _ _ hc, x] at h
    rw [markerCount_lit _ hc, badBrace_lit _ hc]
    exact ih1 h
  | case9 c p s hc e snd x =>
    rw [scanSlot_lit _ _ _ _ hc, x] at h
    simp at h

theorem scanSlots_err_mm {τ : Type} {conv : List Nat → Option τ} :
    ∀ (k : Nat) (nm : Nat → String) {p s : List Nat},
      scanSlots conv nm k p s = .error .MissingMatch → markerCount p < k := by
  intro k
  induction k with
  | zero =>
    intro nm p s h
    simp [scanSlots] at h
  | succ k ih =>
    intro nm p s h
    rw [scanSlots] at h
    cases hs : scanSlot conv (nm 0) p s with
    | error e =>
      rw [hs] at h
      simp only [Except.error.injEq] at h
      subst h
      have h0 := scanSlot_err_mm hs
      omega
    | ok t =>
      obtain ⟨v, p2, s2⟩ := t
      rw [hs] at h
      simp only at h
      cases hr : scanSlots conv (fun i => nm (i + 1)) k p2 s2 with
      | error e2 =>
        rw [hr] at h
        simp only [Except.error.injEq] at h
        subst h
        have h2 := ih _ hr
        have h1 := (scanSlot_ok_marker hs).1
        omega
      | ok t2 =>
        obtain ⟨vs, p3, s3⟩ := t2
        rw [hr] at h
        simp at h

theorem scanSlots_err_mcb {τ : Type} {conv : List Nat → Option τ} :
    ∀ (k : Nat) (nm : Nat → String) {p s : List Nat},
      scanSlots conv nm k p s = .error .MissingClosingBrace →
        badBracePattern p = true := by
  intro k
  induction k with
  | zero =>
    intro nm p s h
    simp [scanSlots] at h
  | succ k ih =>
    intro nm p s h
    rw [scanSlots] at h
    cases hs : scanSlot conv (nm 0) p s with
    | error e =>
      rw [hs] at h
      simp only [Except.error.injEq] at h
      subst h
      exact scanSlot_err_mcb hs
    | ok t =>
      obtain ⟨v, p2, s2⟩ := t
      rw [hs] at h
      simp only at h
      cases hr : scanSlots conv (fun i => nm (i + 1)) k p2 s2 with
      | error e2 =>
        rw [hr] at h
        simp only [Except.error.injEq] at h
        subst h
        rw [(scanSlot_ok_marker hs).2]
        exact ih _ hr
      | ok t2 =>
        obtain ⟨vs, p3, s3⟩ := t2
        rw [hr] at h
        simp at h

theorem try_scan_err_mm {τ : Type} {conv : List Nat → Option τ} {nm : Nat → String}
    {k : Nat} {p s : List Nat}
    (h : try_scan conv nm k p s = .error .MissingMatch) : markerCount p < k := by
  unfold try_scan at h
  cases hs : scanSlots conv nm k p s with
  | error e =>
    rw [hs] at h
    simp only [Except.error.injEq] at h
    subst h
    exact scanSlots_err_mm k nm hs
  | ok t =>
    obtain ⟨vs, p2, s2⟩ := t
    rw [hs] at h
    simp only at h
    cases hm : matchTail p2 s2 with
    | error e2 =>
      rw [hm] at h
      simp only [Except.error.injEq] at h
      subst h
      obtain ⟨exp, act, he⟩ := matchTail_err hm
      simp at he
    | ok s3 =>
      rw [hm] at h
      simp at h

theorem try_scan_err_mcb {τ : Type} {conv : List Nat → Option τ} {nm : Nat → String}
    {k : Nat} {p s : List Nat}
    (h : try_scan conv nm k p s = .error .MissingClosingBrace) :
    badBracePattern p = true := by
  unfold try_scan at h
  cases hs : scanSlots conv nm k p s with
  | error e =>
    rw [hs] at h
    simp only [Except.error.injEq] at h
    subst h
    exact scanSlots_err_mcb k nm hs
  | ok t =>
    obtain ⟨vs, p2, s2⟩ := t
    rw [hs] at h
    simp only at h
    cases hm : matchTail p2 s2 with
    | error e2 =>
      rw [hm] at h
      simp only [Except.error.injEq] at h
      subst h
      obtain ⟨exp, act, he⟩ := matchTail_err hm
      simp at he
    | ok s3 =>
      rw [hm] at h
      simp at h

/-! ## Behaviour of the capture extraction -/

theorem captureRaw_delim_split {d : Nat} (raw t : List Nat) (hd : ∀ b ∈ raw, b ≠ d) :
    captureRaw (some d) (raw ++ d :: t) = (raw, t) := by
  have hpos : ∀ b ∈ raw, (!(b == d)) = true := by
    intro b hb
    simpa using hd b hb
  simp only [captureRaw]
  rw [List.takeWhile_append_of_pos hpos, List.dropWhile_append_of_pos hpos]
  simp [List.takeWhile_cons, List.dropWhile_cons]

theorem captureRaw_delim_absent {d : Nat} (s : List Nat) (hd : d ∉ s) :
    captureRaw (some d) s = (s, []) := by
  have hpos : ∀ b ∈ s, (!(b == d)) = true := by
    intro b hb
    simp only [Bool.not_eq_eq_eq_not, Bool.not_true, beq_eq_false_iff_ne]
    rintro rfl
    exact hd hb
  simp only [captureRaw]
  rw [List.takeWhile_eq_self_iff.mpr hpos, List.dropWhile_eq_nil_iff.mpr hpos]
  rfl

theorem captureRaw_delim_not_mem (d : Nat) (s : List Nat) :
    d ∉ (captureRaw (some d) s).1 := by
  intro hmem
  have := List.mem_takeWhile_imp (p := fun ch => !(ch == d)) (l := s) hmem
  simp at this

theorem captureRaw_delim_mem_split {d : Nat} (s : List Nat) (hd : d ∈ s) :
    s = (captureRaw (some d) s).1 ++ d :: (captureRaw (some d) s).2 := by
  have hne : s.dropWhile (fun ch => !(ch == d)) ≠ [] := by
    intro hnil
    have h2 := List.dropWhile_eq_nil_iff.mp hnil d hd
    simp at h2
  obtain ⟨b, u, hbu⟩ := List.exists_cons_of_ne_nil hne
  have hb0 := List.head?_dropWhile_not (fun ch => !(ch == d)) s
  rw [hbu] at hb0
  simp only [List.head?_cons] at hb0
  have hb : b = d := by simpa using hb0
  rw [hb] at hbu
  have hs := List.takeWhile_append_dropWhile (p := fun ch => !(ch == d)) (l := s)
  simp only [captureRaw]
  rw [hbu]
  simp only [List.drop_succ_cons, List.drop_zero]
  rw [← hbu]
  exact hs.symm

theorem captureRaw_ws_split (raw t : List Nat) (b : Nat) (h1 : raw ≠ [])
    (h2 : ∀ x ∈ raw, isWs x = false) (h3 : isWs b = true) :
    captureRaw none (raw ++ b :: t) = (raw, t) := by
  have hdrop : (raw ++ b :: t).dropWhile (fun ch => isWs ch) = raw ++ b :: t := by
    cases raw with
    | nil => exact absurd rfl h1
    | cons r0 raw2 =>
      rw [List.cons_append, List.dropWhile_cons]
      simp [h2 r0 (by simp)]
  have hpos : ∀ x ∈ raw, (!(isWs x)) = true := by
    intro x hx
    simp [h2 x hx]
  simp only [captureRaw, hdrop]
  rw [List.takeWhile_append_of_pos hpos, List.dropWhile_append_of_pos hpos]
  simp [List.takeWhile_cons, List.dropWhile_cons, h3]

theorem captureRaw_ws_nodelim (text : List Nat) (h2 : ∀ x ∈ text, isWs x = false) :
    captureRaw none text = (text, []) := by
  have hdrop : text.dropWhile (fun ch => isWs ch) = text := by
    cases text with
    | nil => rfl
    | cons r0 t2 =>
      rw [List.dropWhile_cons]
      simp [h2 r0 (by simp)]
  have hpos : ∀ x ∈ text, (!(isWs x)) = true := by
    intro x hx
    simp [h2 x hx]
  simp only [captureRaw, hdrop]
  rw [List.takeWhile_eq_self_iff.mpr hpos, List.dropWhile_eq_nil_iff.mpr hpos]
  rfl

theorem captureRaw_none_decomp (s : List Nat) :
    ∃ w t, s = w ++ (captureRaw none s).1 ++ t ∧
      (∀ b ∈ w, isWs b = true) ∧
      (∀ b ∈ (captureRaw none s).1, isWs b = false) ∧
      ((t = [] ∧ (captureRaw none s).2 = []) ∨
        ∃ b t2, t = b :: t2 ∧ isWs b = true ∧ (captureRaw none s).2 = t2) ∧
      ((captureRaw none s).1 = [] → t = []) := by
  simp only [captureRaw]
  refine ⟨s.takeWhile (fun ch => isWs ch),
    (s.dropWhile (fun ch => isWs ch)).dropWhile (fun ch => !(isWs ch)), ?_, ?_, ?_, ?_, ?_⟩
  · rw [List.append_assoc,
      List.takeWhile_append_dropWhile (p := fun ch => !(isWs ch))
        (l := s.dropWhile (fun ch => isWs ch)),
      List.takeWhile_append_dropWhile]
  · intro b hb
    exact List.mem_takeWhile_imp hb
  · intro b hb
    have hbt := List.mem_takeWhile_imp hb
    simpa using hbt
  · cases hu : (s.dropWhile (fun ch => isWs ch)).dropWhile (fun ch => !(isWs ch)) with
    | nil => exact Or.inl ⟨rfl, rfl⟩
    | cons b t2 =>
      refine Or.inr ⟨b, t2, rfl, ?_, rfl⟩
      have hb0 := List.head?_dropWhile_not (fun ch => !(isWs ch))
        (s.dropWhile (fun ch => isWs ch))
      rw [hu] at hb0
      simp only [List.head?_cons] at hb0
      simpa using hb0
  · intro hraw
    cases ht0 : s.dropWhile (fun ch => isWs ch) with
    | nil => rfl
    | cons b u =>
      have hb0 := List.head?_dropWhile_not (fun ch => isWs ch) s
      rw [ht0] at hb0
      simp only [List.head?_cons] at hb0
      rw [ht0, List.takeWhile_cons] at hraw
      simp [hb0] at hraw

/-! ## UTF-8 validation: the greedy decoder computes the longest valid
decomposition into well-formed characters -/

theorem isUtf8Char_shape {c : List Nat} (h : isUtf8Char c = true) :
    ∃ b0, c.head? = some b0 ∧
      ((b0 < 0x80 ∧ c.length = 1) ∨ (0xC2 ≤ b0 ∧ b0 ≤ 0xDF ∧ c.length = 2) ∨
       (0xE0 ≤ b0 ∧ b0 ≤ 0xEF ∧ c.length = 3) ∨
       (0xF0 ≤ b0 ∧ b0 ≤ 0xF4 ∧ c.length = 4)) := by
  match c with
  | [] => simp [isUtf8Char] at h
  | [b0] =>
    refine ⟨b0, rfl, ?_⟩
    simp [isUtf8Char] at h
    simp
    omega
  | [b0, b1] =>
    refine ⟨b0, rfl, ?_⟩
    simp [isUtf8Char, isCont] at h
    simp
    omega
  | [b0, b1, b2] =>
    refine ⟨b0, rfl, ?_⟩
    simp [isUtf8Char, isCont] at h
    simp
    omega
  | [b0, b1, b2, b3] =>
    refine ⟨b0, rfl, ?_⟩
    simp [isUtf8Char, isCont] at h
    simp
    omega
  | b0 :: b1 :: b2 :: b3 :: b4 :: r => simp [isUtf8Char] at h

theorem utf8Char_take_unique {l : List Nat} {j k : Nat} (hj : j ≤ l.length)
    (hk : k ≤ l.length) (cj : isUtf8Char (l.take j) = true)
    (ck : isUtf8Char (l.take k) = true) : j = k := by
  obtain ⟨a, ha, hra⟩ := isUtf8Char_shape cj
  obtain ⟨b, hb, hrb⟩ := isUtf8Char_shape ck
  have hlj : (l.take j).length = j := by
    rw [List.length_take]
    omega
  have hlk : (l.take k).length = k := by
    rw [List.length_take]
    omega
  rw [hlj] at hra
  rw [hlk] at hrb
  have hj1 : j ≠ 0 := by omega
  have hk1 : k ≠ 0 := by omega
  have haj : l.head? = some a := by
    rw [List.head?_take] at ha
    simpa [hj1] using ha
  have hbk : l.head? = some b := by
    rw [List.head?_take] at hb
    simpa [hk1] using hb
  have hab : a = b := by
    rw [haj] at hbk
    exact Option.some.inj hbk
  omega

theorem upTo_cons1 {b0 : Nat} {r0 : List Nat} (h : isUtf8Char [b0] = true) :
    utf8ValidUpTo (b0 :: r0) = 1 + utf8ValidUpTo r0 := by
  rw [utf8ValidUpTo.eq_def]
  simp [h]

theorem upTo_cons2 {b0 b1 : Nat} {r1 : List Nat} (h1 : isUtf8Char [b0] = false)
    (h2 : isUtf8Char [b0, b1] = true) :
    utf8ValidUpTo (b0 :: b1 :: r1) = 2 + utf8ValidUpTo r1 := by
  rw [utf8ValidUpTo.eq_def]
  simp [h1, h2]

theorem upTo_cons3 {b0 b1 b2 : Nat} {r2 : List Nat} (h1 : isUtf8Char [b0] = false)
    (h2 : isUtf8Char [b0, b1] = false) (h3 : isUtf8Char [b0, b1, b2] = true) :
    utf8ValidUpTo (b0 :: b1 :: b2 :: r2) = 3 + utf8ValidUpTo r2 := by
  rw [utf8ValidUpTo.eq_def]
  simp [h1, h2, h3]

theorem upTo_cons4 {b0 b1 b2 b3 : Nat} {r3 : List Nat} (h1 : isUtf8Char [b0] = false)
    (h2 : isUtf8Char [b0, b1] = false) (h3 : isUtf8Char [b0, b1, b2] = false)
    (h4 : isUtf8Char [b0, b1, b2, b3] = true) :
    utf8ValidUpTo (b0 :: b1 :: b2 :: b3 :: r3) = 4 + utf8ValidUpTo r3 := by
  rw [utf8ValidUpTo.eq_def]
  simp [h1, h2, h3, h4]

theorem utf8Char_take_bounds {l : List Nat} {k : Nat} (h2 : k ≤ l.length)
    (hc : isUtf8Char (l.take k) = true) : 1 ≤ k ∧ k ≤ 4 := by
  obtain ⟨a, ha, hra⟩ := isUtf8Char_shape hc
  have hlk : (l.take k).length = k := by
    rw [List.length_take]
    omega
  rw [hlk] at hra
  omega

theorem utf8ValidUpTo_step {l : List Nat} {k : Nat} (h2 : k ≤ l.length)
    (hc : isUtf8Char (l.take k) = true) :
    utf8ValidUpTo l = k + utf8ValidUpTo (l.drop k) := by
  obtain ⟨hk1, hk4⟩ := utf8Char_take_bounds h2 hc
  interval_cases k
  · match l, h2 with
    | b0 :: r0, _ =>
      simp only [List.take_succ_cons, List.take_zero] at hc
      simp [upTo_cons1 hc]
  · match l, h2 with
    | b0 :: b1 :: r1, _ =>
      simp only [List.take_succ_cons, List.take_zero] at hc
      have hf1 : isUtf8Char [b0] = false := by
        cases hb : isUtf8Char [b0] with
        | false => rfl
        | true =>
          have h12 := utf8Char_take_unique (l := b0 :: b1 :: r1) (j := 1) (k := 2)
            (by simp only [List.length_cons]; omega) (by simp only [List.length_cons]; omega)
            (by simpa using hb) (by simpa using hc)
          omega
      simp [upTo_cons2 hf1 hc]
  · match l, h2 with
    | b0 :: b1 :: b2 :: r2, _ =>
      simp only [List.take_succ_cons, List.take_zero] at hc
      have hf1 : isUtf8Char [b0] = false := by
        cases hb : isUtf8Char [b0] with
        | false => rfl
        | true =>
          have h13 := utf8Char_take_unique (l := b0 :: b1 :: b2 :: r2) (j := 1) (k := 3)
            (by simp only [List.length_cons]; omega) (by simp only [List.length_cons]; omega)
            (by simpa using hb) (by simpa using hc)
          omega
      have hf2 : isUtf8Char [b0, b1] = false := by
        cases hb : isUtf8Char [b0, b1] with
        | false => rfl
        | true =>
          have h23 := utf8Char_take_unique (l := b0 :: b1 :: b2 :: r2) (j := 2) (k := 3)
            (by simp only [List.length_cons]; omega) (by simp only [List.length_cons]; omega)
            (by simpa using hb) (by simpa using hc)
          omega
      simp [upTo_cons3 hf1 hf2 hc]
  · match l, h2 with
    | b0 :: b1 :: b2 :: b3 :: r3, _ =>
      simp only [List.take_succ_cons, List.take_zero] at hc
      have hf1 : isUtf8Char [b0] = false := by
        cases hb : isUtf8Char [b0] with
        | false => rfl
        | true =>
          have h14 := utf8Char_take_unique (l := b0 :: b1 :: b2 :: b3 :: r3) (j := 1) (k := 4)
            (by simp only [List.length_cons]; omega) (by simp only [List.length_cons]; omega)
            (by simpa using hb) (by simpa using hc)
          omega
      have hf2 : isUtf8Char [b0, b1] = false := by
        cases hb : isUtf8Char [b0, b1] with
        | false => rfl
        | true =>
          have h24 := utf8Char_take_unique (l := b0 :: b1 :: b2 :: b3 :: r3) (j := 2) (k := 4)
            (by simp only [List.length_cons]; omega) (by simp only [List.length_cons]; omega)
            (by simpa using hb) (by simpa using hc)
          omega
      have hf3 : isUtf8Char [b0, b1, b2] = false := by
        cases hb : isUtf8Char [b0, b1, b2] with
        | false => rfl
        | true =>
          have h34 := utf8Char_take_unique (l := b0 :: b1 :: b2 :: b3 :: r3) (j := 3) (k := 4)
            (by simp only [List.length_cons]; omega) (by simp only [List.length_cons]; omega)
            (by simpa using hb) (by simpa using hc)
          omega
      simp [upTo_cons4 hf1 hf2 hf3 hc]

theorem utf8Valid_dest {l : List Nat} (hne : l ≠ []) (h : utf8Valid l = true) :
    ∃ k, 1 ≤ k ∧ k ≤ l.length ∧ isUtf8Char (l.take k) = true ∧
      utf8Valid (l.drop k) = true := by
  match l with
  | [] => exact absurd rfl hne
  | b0 :: r0 =>
    rw [utf8Valid.eq_def] at h
    simp only [Bool.or_eq_true, Bool.and_eq_true] at h
    rcases h with ⟨hc, hv⟩ | h
    · exact ⟨1, by norm_num, by simp only [List.length_cons]; omega, by simpa using hc,
        by simpa using hv⟩
    · cases r0 with
      | nil => simp at h
      | cons b1 r1 =>
        simp only [Bool.or_eq_true, Bool.and_eq_true] at h
        rcases h with ⟨hc, hv⟩ | h
        · exact ⟨2, by norm_num, by simp only [List.length_cons]; omega,
            by simpa using hc, by simpa using hv⟩
        · cases r1 with
          | nil => simp at h
          | cons b2 r2 =>
            simp only [Bool.or_eq_true, Bool.and_eq_true] at h
            rcases h with ⟨hc, hv⟩ | h
            · exact ⟨3, by norm_num, by simp only [List.length_cons]; omega,
                by simpa using hc, by simpa using hv⟩
            · cases r2 with
              | nil => simp at h
              | cons b3 r3 =>
                simp only [Bool.and_eq_true] at h
                obtain ⟨hc, hv⟩ := h
                exact ⟨4, by norm_num, by simp only [List.length_cons]; omega,
                  by simpa using hc, by simpa using hv⟩

theorem utf8Valid_cons {l : List Nat} {k : Nat} (h2 : k ≤ l.length)
    (hc : isUtf8Char (l.take k) = true) (hv : utf8Valid (l.drop k) = true) :
    utf8Valid l = true := by
  obtain ⟨hk1, hk4⟩ := utf8Char_take_bounds h2 hc
  interval_cases k
  · match l, h2 with
    | b0 :: r0, _ =>
      simp only [List.take_succ_cons, List.take_zero] at hc
      have hv1 : utf8Valid r0 = true := by simpa using hv
      rw [utf8Valid.eq_def]
      simp [hc, hv1]
  · match l, h2 with
    | b0 :: b1 :: r1, _ =>
      simp only [List.take_succ_cons, List.take_zero] at hc
      have hv1 : utf8Valid r1 = true := by simpa using hv
      rw [utf8Valid.eq_def]
      simp [hc, hv1]
  · match l, h2 with
    | b0 :: b1 :: b2 :: r2, _ =>
      simp only [List.take_succ_cons, List.take_zero] at hc
      have hv1 : utf8Valid r2 = true := by simpa using hv
      rw [utf8Valid.eq_def]
      simp [hc, hv1]
  · match l, h2 with
    | b0 :: b1 :: b2 :: b3 :: r3, _ =>
      simp only [List.take_succ_cons, List.take_zero] at hc
      have hv1 : utf8Valid r3 = true := by simpa using hv
      rw [utf8Valid.eq_def]
      simp [hc, hv1]

theorem utf8ValidUpTo_eq_zero {l : List Nat}
    (h : ∀ k, 1 ≤ k → k ≤ l.length → isUtf8Char (l.take k) = false) :
    utf8ValidUpTo l = 0 := by
  match l with
  | [] => rfl
  | b0 :: r0 =>
    have hf1 : isUtf8Char [b0] = false := by
      have := h 1 (by norm_num) (by simp only [List.length_cons]; omega)
      simpa using this
    rw [utf8ValidUpTo.eq_def]
    cases r0 with
    | nil => simp [hf1]
    | cons b1 r1 =>
      have hf2 : isUtf8Char [b0, b1] = false := by
        have := h 2 (by norm_num) (by simp only [List.length_cons]; omega)
        simpa using this
      cases r1 with
      | nil => simp [hf1, hf2]
      | cons b2 r2 =>
        have hf3 : isUtf8Char [b0, b1, b2] = false := by
          have := h 3 (by norm_num) (by simp only [List.length_cons]; omega)
          simpa using this
        cases r2 with
        | nil => simp [hf1, hf2, hf3]
        | cons b3 r3 =>
          have hf4 : isUtf8Char [b0, b1, b2, b3] = false := by
            have := h 4 (by norm_num) (by simp only [List.length_cons]; omega)
            simpa using this
          simp [hf1, hf2, hf3, hf4]

theorem utf8ValidUpTo_le_length : ∀ (l : List Nat), utf8ValidUpTo l ≤ l.length := by
  have aux : ∀ (n : Nat) (l : List Nat), l.length ≤ n →
      utf8ValidUpTo l ≤ l.length := by
    intro n
    induction n with
    | zero =>
      intro l hl
      have hnil : l = [] := List.eq_nil_of_length_eq_zero (by omega)
      subst hnil
      simp [utf8ValidUpTo]
    | succ n ih =>
      intro l hl
      by_cases hch : ∃ k, 1 ≤ k ∧ k ≤ l.length ∧ isUtf8Char (l.take k) = true
      · obtain ⟨k, hk1, hk2, hc⟩ := hch
        rw [utf8ValidUpTo_step hk2 hc]
        have hdl : (l.drop k).length ≤ n := by
          rw [List.length_drop]
          omega
        have := ih (l.drop k) hdl
        rw [List.length_drop] at this
        omega
      · push_neg at hch
        simp only [Bool.not_eq_true] at hch
        rw [utf8ValidUpTo_eq_zero hch]
        omega
  intro l
  exact aux l.length l (le_refl _)

theorem utf8Valid_append_le : ∀ (n : Nat) (a b : List Nat), a.length ≤ n →
    utf8Valid a = true → a.length ≤ utf8ValidUpTo (a ++ b) := by
  intro n
  induction n with
  | zero =>
    intro a b ha hv
    have hnil : a = [] := List.eq_nil_of_length_eq_zero (by omega)
    subst hnil
    simp
  | succ n ih =>
    intro a b ha hv
    by_cases hne : a = []
    · subst hne
      simp
    · obtain ⟨k, hk1, hk2, hc, hv2⟩ := utf8Valid_dest hne hv
      have hc2 : isUtf8Char ((a ++ b).take k) = true := by
        rw [List.take_append_of_le_length hk2]
        exact hc
      have hstep := utf8ValidUpTo_step (l := a ++ b) (k := k)
        (by rw [List.length_append]; omega) hc2
      have hdrop : (a ++ b).drop k = a.drop k ++ b := List.drop_append_of_le_length hk2
      rw [hstep, hdrop]
      have hlen : (a.drop k).length ≤ n := by
        rw [List.length_drop]
        omega
      have hrec := ih (a.drop k) b hlen hv2
      rw [List.length_drop] at hrec
      omega

theorem utf8Valid_take_upTo : ∀ (n : Nat) (l : List Nat), l.length ≤ n →
    utf8Valid (l.take (utf8ValidUpTo l)) = true := by
  intro n
  induction n with
  | zero =>
    intro l hl
    have hnil : l = [] := List.eq_nil_of_length_eq_zero (by omega)
    subst hnil
    rfl
  | succ n ih =>
    intro l hl
    by_cases hch : ∃ k, 1 ≤ k ∧ k ≤ l.length ∧ isUtf8Char (l.take k) = true
    · obtain ⟨k, hk1, hk2, hc⟩ := hch
      rw [utf8ValidUpTo_step hk2 hc, List.take_add]
      apply utf8Valid_cons (k := k)
      · rw [List.length_append, List.length_take]
        omega
      · rw [List.take_append_of_le_length (by rw [List.length_take]; omega),
          List.take_take]
        simpa [Nat.min_self] using hc
      · rw [List.drop_append_of_le_length (by rw [List.length_take]; omega)]
        have hd : (l.take k).drop k = [] :=
          List.drop_of_length_le (by rw [List.length_take]; omega)
        rw [hd, List.nil_append]
        exact ih (l.drop k) (by rw [List.length_drop]; omega)
    · push_neg at hch
      simp only [Bool.not_eq_true] at hch
      rw [utf8ValidUpTo_eq_zero hch, List.take_zero]
      rfl

theorem utf8Valid_iff_upTo {l : List Nat} :
    utf8Valid l = true ↔ utf8ValidUpTo l = l.length := by
  constructor
  · intro h
    have h1 := utf8Valid_append_le l.length l [] (le_refl _) h
    rw [List.append_nil] at h1
    have h2 := utf8ValidUpTo_le_length l
    omega
  · intro h
    have h3 := utf8Valid_take_upTo l.length l (le_refl _)
    rwa [h, List.take_length] at h3

theorem utf8Valid_take_le_upTo {l : List Nat} {m : Nat} (hm : m ≤ l.length)
    (h : utf8Valid (l.take m) = true) : m ≤ utf8ValidUpTo l := by
  have h1 := utf8Valid_append_le m (l.take m) (l.drop m)
    (by rw [List.length_take]; omega) h
  rw [List.take_append_drop, List.length_take] at h1
  omega

/-! ## Successful captures and the literal-prefix round trip -/

theorem parse_capture_ok {τ : Type} {conv : List Nat → Option τ} {nm : String}
    {next : Option Nat} {s raw rest : List Nat} {v : τ}
    (hcr : captureRaw next s = (raw, rest)) (hval : utf8Valid raw = true)
    (hconv : conv raw = some v) :
    parse_capture conv nm next s = (.ok v, rest) := by
  have hd : decode_utf8 raw = .ok raw := by
    simp [decode_utf8, utf8Valid_iff_upTo.mp hval]
  simp [parse_capture, hcr, hd, hconv]

theorem scanSlot_ws_final {τ : Type} (conv : List Nat → Option τ) (nm : String)
    (text : List Nat) (v : τ) (hnws : ∀ b ∈ text, isWs b = false)
    (hval : utf8Valid text = true) (hconv : conv text = some v) :
    scanSlot conv nm [123, 125] text = .ok (v, [], []) := by
  rw [scanSlot_cap]
  have hcr : captureRaw none text = (text, []) := captureRaw_ws_nodelim text hnws
  rw [show (([] : List Nat)).head? = none from rfl, parse_capture_ok hcr hval hconv]
  rfl

theorem unescapeLit_esc (p : List Nat) :
    unescapeLit (123 :: 123 :: p) = 123 :: unescapeLit p := by
  rw [unescapeLit.eq_def]
  simp

theorem unescapeLit_lit {c : Nat} (p : List Nat) (hc : c ≠ 123) :
    unescapeLit (c :: p) = c :: unescapeLit p := by
  cases p with
  | nil => rfl
  | cons d p2 =>
    rw [unescapeLit.eq_def]
    simp [hc]

theorem okLit_esc {p : List Nat} (h : okLit (123 :: p) = true) :
    ∃ p2, p = 123 :: p2 ∧ okLit p2 = true := by
  cases p with
  | nil =>
    rw [okLit.eq_def] at h
    simp at h
  | cons d p2 =>
    rw [okLit.eq_def] at h
    simp at h
    exact ⟨p2, by rw [h.1], h.2⟩

theorem okLit_lit {c : Nat} {p : List Nat} (hc : c ≠ 123) (h : okLit (c :: p) = true) :
    c ≠ 125 ∧ okLit p = true := by
  rw [okLit.eq_def] at h
  simp only [if_neg hc] at h
  by_cases hc2 : c = 125
  · rw [if_pos hc2] at h
    simp at h
  · rw [if_neg hc2] at h
    exact ⟨hc2, h⟩

theorem formatPattern_marker (text p : List Nat) :
    formatPattern text (123 :: 125 :: p) =
      (formatPattern text p).map (fun r => text ++ r) := by
  rw [formatPattern.eq_def]
  simp

theorem formatPattern_esc (text p : List Nat) :
    formatPattern text (123 :: 123 :: p) =
      (formatPattern text p).map (fun r => 123 :: r) := by
  rw [formatPattern.eq_def]
  simp

theorem formatPattern_lit (text : List Nat) {c : Nat} (x : List Nat)
    (hc1 : c ≠ 123) (hc2 : c ≠ 125) (hx : x ≠ []) :
    formatPattern text (c :: x) = (formatPattern text x).map (fun r => c :: r) := by
  cases x with
  | nil => exact absurd rfl hx
  | cons d p =>
    rw [formatPattern.eq_def]
    simp [hc1, hc2]

theorem formatPattern_okLit (text : List Nat) : ∀ (n : Nat) (a : List Nat),
    a.length ≤ n → okLit a = true →
    formatPattern text (a ++ [123, 125]) = some (unescapeLit a ++ text) := by
  intro n
  induction n with
  | zero =>
    intro a ha hok
    have hnil : a = [] := List.eq_nil_of_length_eq_zero (by omega)
    subst hnil
    rw [List.nil_append, formatPattern_marker]
    simp [formatPattern, unescapeLit]
  | succ n ih =>
    intro a ha hok
    cases a with
    | nil =>
      rw [List.nil_append, formatPattern_marker]
      simp [formatPattern, unescapeLit]
    | cons c a2 =>
      by_cases hc : c = 123
      · subst hc
        obtain ⟨a3, ha3, hok3⟩ := okLit_esc hok
        subst ha3
        rw [List.cons_append, List.cons_append, formatPattern_esc, unescapeLit_esc]
        rw [ih a3 (by simp only [List.length_cons] at ha ⊢; omega) hok3]
        simp
      · obtain ⟨hc2, hok2⟩ := okLit_lit hc hok
        rw [List.cons_append, formatPattern_lit text (a2 ++ [123, 125]) hc hc2 (by simp),
          unescapeLit_lit a2 hc]
        rw [ih a2 (by simp only [List.length_cons] at ha; omega) hok2]
        simp

theorem scanLit_capture {τ : Type} (conv : List Nat → Option τ) (nm : String)
    (text : List Nat) (v : τ) (hne : text ≠ [])
    (hnws : ∀ b ∈ text, isWs b = false) (hval : utf8Valid text = true)
    (hconv : conv text = some v) : ∀ (n : Nat) (a : List Nat),
    a.length ≤ n → okLit a = true →
    scanSlot conv nm (a ++ [123, 125]) (unescapeLit a ++ text) = .ok (v, [], []) := by
  intro n
  induction n with
  | zero =>
    intro a ha hok
    have hnil : a = [] := List.eq_nil_of_length_eq_zero (by omega)
    subst hnil
    simpa [unescapeLit] using scanSlot_ws_final conv nm text v hnws hval hconv
  | succ n ih =>
    intro a ha hok
    cases a with
    | nil => simpa [unescapeLit] using scanSlot_ws_final conv nm text v hnws hval hconv
    | cons c a2 =>
      by_cases hc : c = 123
      · subst hc
        obtain ⟨a3, ha3, hok3⟩ := okLit_esc hok
        subst ha3
        rw [unescapeLit_esc, List.cons_append, List.cons_append, List.cons_append,
          scanSlot_esc]
        have hmn : match_next 123 (123 :: (unescapeLit a3 ++ text)) =
            (.ok (), unescapeLit a3 ++ text) := by simp [match_next]
        rw [hmn]
        exact ih a3 (by simp only [List.length_cons] at ha ⊢; omega) hok3
      · obtain ⟨hc2, hok2⟩ := okLit_lit hc hok
        rw [unescapeLit_lit a2 hc, List.cons_append, List.cons_append,
          scanSlot_lit _ _ _ _ hc]
        have hmn : match_next c (c :: (unescapeLit a2 ++ text)) =
            (.ok (), unescapeLit a2 ++ text) := by simp [match_next]
        rw [hmn]
        exact ih a2 (by simp only [List.length_cons] at ha; omega) hok2

/-! ## Claim theorems -/

/-- C1 (counterexample): on the pattern `"{,}"` (a `{d}` marker with the
delimiter inside the braces) the scan reports `MissingClosingBrace`
instead of performing a comma-delimited capture, refuting the claimed
tokenization rule `{` then `d` opens a `d`-delimited capture. -/
theorem claim1_counterexample :
    try_scan (fun l : List Nat => some l) (fun _ => "x") 1 [123, 44, 125] [97, 44, 98] =
      .error .MissingClosingBrace := rfl

/-- C1 (amended): after one `{` is consumed, a second `{` matches one
literal `{` from the stream; a `}` opens a capture whose delimiter is the
pattern byte following the `}` (taken out of the pattern); any other byte
after `{` is a `MissingClosingBrace` error, not a delimited capture. -/
theorem claim1_brace_tokenization {τ : Type} (conv : List Nat → Option τ)
    (nm : String) (d : Nat) (p s : List Nat) :
    (d ≠ 123 → d ≠ 125 → scanSlot conv nm (123 :: d :: p) s = .error .MissingClosingBrace) ∧
    (∀ s2 : List Nat, scanSlot conv nm (123 :: 123 :: p) (123 :: s2) = scanSlot conv nm p s2) ∧
    (scanSlot conv nm (123 :: 125 :: p) s =
      match parse_capture conv nm p.head? s with
      | (.ok v, s2) => .ok (v, p.drop 1, s2)
      | (.error e, _) => .error e) := by
  refine ⟨fun h1 h2 => scanSlot_badbrace conv nm p s h1 h2, fun s2 => ?_, scanSlot_cap conv nm p s⟩
  rw [scanSlot_esc]
  simp [match_next]

/-- C1 (witness). -/
theorem claim1_witness :
    scanSlot (fun l : List Nat => some l) "x" [123, 44, 125] [97, 44, 98] =
      .error .MissingClosingBrace :=
  (claim1_brace_tokenization (fun l => some l) "x" 44 [125] [97, 44, 98]).1
    (by decide) (by decide)

/-- C2 (counterexample): with delimiter `,` on the stream `"a,b"` the
extractor leaves `"b"`, not `",b"` — the delimiter byte is consumed by
the extraction, not left to be matched by the literal matcher; and on the
pattern `"{},"` with stream `"ab"` (no comma at all) the scan succeeds,
so the delimiter is never required to match as a literal pattern step. -/
theorem claim2_counterexample :
    (captureRaw (some 44) [97, 44, 98]).2 = [98] ∧ ([98] : List Nat) ≠ [44, 98] ∧
    try_scan (fun l : List Nat => some l) (fun _ => "x") 1 [123, 125, 44] [97, 98] =
      .ok ([[97, 98]], []) := ⟨rfl, by decide, rfl⟩

/-- C2 (amended): a delimited capture with delimiter `d` collects the
stream bytes up to the first `d`; `d` itself is never part of the
captured span; when `d` occurs, extraction consumes it together with the
span, so the stream resumes immediately after `d`; when `d` never occurs,
the whole remaining stream is captured and nothing is left. -/
theorem claim2_delimited_capture (d : Nat) (s : List Nat) :
    d ∉ (captureRaw (some d) s).1 ∧
    (d ∈ s → s = (captureRaw (some d) s).1 ++ d :: (captureRaw (some d) s).2) ∧
    (d ∉ s → captureRaw (some d) s = (s, [])) :=
  ⟨captureRaw_delim_not_mem d s, fun h => captureRaw_delim_mem_split s h,
   fun h => captureRaw_delim_absent s h⟩

/-- C2 (witness). -/
theorem claim2_witness :
    44 ∉ (captureRaw (some 44) [97, 44, 98]).1 ∧
    [97, 44, 98] = (captureRaw (some 44) [97, 44, 98]).1 ++
      44 :: (captureRaw (some 44) [97, 44, 98]).2 :=
  ⟨(claim2_delimited_capture 44 [97, 44, 98]).1,
   (claim2_delimited_capture 44 [97, 44, 98]).2.1 (by decide)⟩

/-- C3 (counterexample): the pattern `"{} {}"` contains two capture
markers while only one slot is required, yet the scan of `"a {}"`
succeeds (the leftover `{}` is matched as two literal bytes) instead of
producing `MissingMatch` as the claim demands. -/
theorem claim3_counterexample :
    try_scan (fun l : List Nat => some l) (fun _ => "x") 1
      [123, 125, 32, 123, 125] [97, 32, 123, 125] = .ok ([[97]], []) := rfl

/-- C3 (amended): `MissingMatch` arises only when the pattern holds fewer
capture markers than required slots (never from excess markers, which are
matched literally); `MissingClosingBrace` arises only when the pattern
holds a `{` at its end or a `{` followed by a byte other than `{`/`}`;
conversely, with one required slot an empty pattern yields `MissingMatch`
and the pattern `"{"` yields `MissingClosingBrace`. -/
theorem claim3_structural_errors {τ : Type} (conv : List Nat → Option τ)
    (nm : Nat → String) (k : Nat) (p s : List Nat) :
    (try_scan conv nm k p s = .error .MissingMatch → markerCount p < k) ∧
    (try_scan conv nm k p s = .error .MissingClosingBrace → badBracePattern p = true) ∧
    try_scan conv nm 1 ([] : List Nat) s = .error .MissingMatch ∧
    try_scan conv nm 1 [123] s = .error .MissingClosingBrace :=
  ⟨fun h => try_scan_err_mm h, fun h => try_scan_err_mcb h, rfl, rfl⟩

/-- C3 (witness). -/
theorem claim3_witness :
    markerCount ([] : List Nat) < 1 ∧ badBracePattern [123] = true :=
  ⟨(claim3_structural_errors (fun l : List Nat => some l) (fun _ => "x") 1 [] []).1 rfl,
   (claim3_structural_errors (fun l : List Nat => some l) (fun _ => "x") 1 [123] []).2.1 rfl⟩

/-- C4 (counterexample): the undelimited extraction on the stream
`"a b"` captures `"a"` and leaves `"b"`: the terminating space is pulled
from the stream and discarded, not left unconsumed as the claim states. -/
theorem claim4_counterexample :
    captureRaw none [97, 32, 98] = ([97], [98]) ∧
    (captureRaw none [97, 32, 98]).2 ≠ [32, 98] := ⟨rfl, by decide⟩

/-- C4 (amended): an undelimited capture stops at the first whitespace
byte or at end-of-stream; the terminating whitespace byte, when it
exists, is consumed by the extraction (it appears neither in the captured
span nor in the remaining stream), so it is never matched against a
pattern literal. -/
theorem claim4_ws_boundary (s : List Nat) :
    ∃ w t, s = w ++ (captureRaw none s).1 ++ t ∧
      (∀ b ∈ w, isWs b = true) ∧
      (∀ b ∈ (captureRaw none s).1, isWs b = false) ∧
      ((t = [] ∧ (captureRaw none s).2 = []) ∨
        ∃ b t2, t = b :: t2 ∧ isWs b = true ∧ (captureRaw none s).2 = t2) := by
  obtain ⟨w, t, h1, h2, h3, h4, h5⟩ := captureRaw_none_decomp s
  exact ⟨w, t, h1, h2, h3, h4⟩

/-- C4 (witness). -/
theorem claim4_witness :
    ∃ w t, [97, 32, 98] = w ++ (captureRaw none [97, 32, 98]).1 ++ t ∧
      (∀ b ∈ w, isWs b = true) ∧
      (∀ b ∈ (captureRaw none [97, 32, 98]).1, isWs b = false) ∧
      ((t = [] ∧ (captureRaw none [97, 32, 98]).2 = []) ∨
        ∃ b t2, t = b :: t2 ∧ isWs b = true ∧ (captureRaw none [97, 32, 98]).2 = t2) :=
  claim4_ws_boundary [97, 32, 98]

/-- C5: the undelimited capture first discards the leading run of
whitespace, then collects exactly the maximal following run of
non-whitespace bytes, and is empty only when the stream holds no
non-whitespace byte. The decomposition `s = w ++ span ++ t` with `w`
all-whitespace, the span whitespace-free, `t` headed by whitespace, and
`t` forced empty whenever the span is empty, is satisfiable only by the
maximal leading whitespace run `w` and the maximal non-whitespace run as
the span: an empty span with a non-empty `t` is excluded. -/
theorem claim5_ws_capture_content (s : List Nat) :
    (∀ b ∈ (captureRaw none s).1, isWs b = false) ∧
    (∃ w t, s = w ++ (captureRaw none s).1 ++ t ∧
      (∀ b ∈ w, isWs b = true) ∧
      (∀ b, t.head? = some b → isWs b = true) ∧
      ((captureRaw none s).1 = [] → t = [])) ∧
    ((∀ b ∈ s, isWs b = true) → (captureRaw none s).1 = []) := by
  obtain ⟨w, t, h1, h2, h3, h4, h5⟩ := captureRaw_none_decomp s
  refine ⟨h3, ⟨w, t, h1, h2, ?_, h5⟩, ?_⟩
  · intro b hb
    rcases h4 with ⟨ht, _⟩ | ⟨b2, t2, ht, hws, _⟩
    · rw [ht] at hb
      simp at hb
    · rw [ht] at hb
      simp only [List.head?_cons, Option.some.injEq] at hb
      rwa [← hb]
  · intro hall
    by_contra hne
    obtain ⟨b, hb⟩ := List.exists_mem_of_ne_nil _ hne
    have hbs : b ∈ s := by
      rw [h1]
      exact List.mem_append.mpr (Or.inl (List.mem_append.mpr (Or.inr hb)))
    have := hall b hbs
    rw [h3 b hb] at this
    simp at this

/-- C5 (witness). -/
theorem claim5_witness :
    (∀ b ∈ (captureRaw none [32, 55, 32]).1, isWs b = false) ∧
    (∃ w t, [32, 55, 32] = w ++ (captureRaw none [32, 55, 32]).1 ++ t ∧
      (∀ b ∈ w, isWs b = true) ∧
      (∀ b, t.head? = some b → isWs b = true) ∧
      ((captureRaw none [32, 55, 32]).1 = [] → t = [])) ∧
    ((∀ b ∈ [32, 55, 32], isWs b = true) → (captureRaw none [32, 55, 32]).1 = []) :=
  claim5_ws_capture_content [32, 55, 32]

/-- C6: on a captured byte sequence that is not valid UTF-8 the decoder
fails with `InvalidUtf8 raw` when `valid_up_to` is zero and with
`PartialUtf8 n raw` (with the full raw buffer) otherwise, where
`n = utf8ValidUpTo raw` is exactly the length of the longest valid UTF-8
prefix: the prefix of that length is valid and every longer prefix is
invalid. A fully valid sequence decodes successfully and proceeds to
conversion. -/
theorem claim6_utf8_decode (raw : List Nat) (hinv : utf8Valid raw = false) :
    (utf8ValidUpTo raw = 0 → decode_utf8 raw = .error (.InvalidUtf8 raw)) ∧
    (utf8ValidUpTo raw ≠ 0 →
      decode_utf8 raw = .error (.PartialUtf8 (utf8ValidUpTo raw) raw)) ∧
    utf8Valid (raw.take (utf8ValidUpTo raw)) = true ∧
    (∀ m, utf8ValidUpTo raw < m → m ≤ raw.length → utf8Valid (raw.take m) = false) ∧
    (∀ raw2 : List Nat, utf8Valid raw2 = true → decode_utf8 raw2 = .ok raw2) := by
  have hne : utf8ValidUpTo raw ≠ raw.length := by
    intro h
    rw [utf8Valid_iff_upTo.mpr h] at hinv
    simp at hinv
  refine ⟨?_, ?_, ?_, ?_, ?_⟩
  · intro h0
    simp only [decode_utf8, h0]
    rw [if_neg (by omega)]
    simp
  · intro h0
    simp only [decode_utf8]
    rw [if_neg hne, if_neg h0]
  · exact utf8Valid_take_upTo raw.length raw (le_refl _)
  · intro m h1 h2
    cases hv : utf8Valid (raw.take m) with
    | false => rfl
    | true =>
      have := utf8Valid_take_le_upTo h2 hv
      omega
  · intro raw2 hv
    simp [decode_utf8, utf8Valid_iff_upTo.mp hv]

/-- C6 (witness): `[65, 255]` has longest valid prefix `"A"` of length 1
and decodes to `PartialUtf8 1 [65, 255]`. -/
theorem claim6_witness :
    decode_utf8 [65, 255] = .error (.PartialUtf8 (utf8ValidUpTo [65, 255]) [65, 255]) ∧
    decode_utf8 [255] = .error (.InvalidUtf8 [255]) :=
  ⟨(claim6_utf8_decode [65, 255] (by decide)).2.1 (by decide),
   (claim6_utf8_decode [255] (by decide)).1 (by decide)⟩

/-- C7 (counterexample): the pattern `"}}{}"` contains a single
undelimited capture; formatting the whitespace-free text `"5"` into it
(with the `}}` escape rendered as `}`) yields `"}5"`, yet scanning `"}5"`
with the same pattern fails with `UnexpectedValue` instead of
reproducing the value — the scanner gives `}}` no escape treatment. -/
theorem claim7_counterexample :
    formatPattern [53] [125, 125, 123, 125] = some [125, 53] ∧
    try_scan (fun l : List Nat => some l) (fun _ => "x") 1
      [125, 125, 123, 125] [125, 53] = .error (.UnexpectedValue 125 (some 53)) :=
  ⟨rfl, rfl⟩

/-- C7 (amended): for a pattern whose literal part contains no `}` (every
`{` doubled as an escape, no `}}` escapes) followed by a single final
undelimited `{}` capture, and a value whose text is non-empty,
whitespace-free, valid UTF-8, and round-trips through the conversion,
formatting produces the unescaped literal followed by the text, and
scanning that output with the same pattern succeeds and reproduces the
value. -/
theorem claim7_roundtrip {τ : Type} (conv : List Nat → Option τ) (nm : Nat → String)
    (a text : List Nat) (v : τ) (hok : okLit a = true) (hne : text ≠ [])
    (hnws : ∀ b ∈ text, isWs b = false) (hval : utf8Valid text = true)
    (hconv : conv text = some v) :
    formatPattern text (a ++ [123, 125]) = some (unescapeLit a ++ text) ∧
    try_scan conv nm 1 (a ++ [123, 125]) (unescapeLit a ++ text) = .ok ([v], []) := by
  constructor
  · exact formatPattern_okLit text a.length a (le_refl _) hok
  · have hslot := scanLit_capture conv (nm 0) text v hne hnws hval hconv
      a.length a (le_refl _) hok
    simp [try_scan, scanSlots, hslot, matchTail]

/-- C7 (witness). -/
theorem claim7_witness :
    formatPattern [53] ([84, 104, 101, 32] ++ [123, 125]) =
      some (unescapeLit [84, 104, 101, 32] ++ [53]) ∧
    try_scan (fun l : List Nat => some l) (fun _ => "x") 1
      ([84, 104, 101, 32] ++ [123, 125]) (unescapeLit [84, 104, 101, 32] ++ [53]) =
      .ok ([[53]], []) :=
  claim7_roundtrip (fun l => some l) (fun _ => "x") [84, 104, 101, 32] [53] [53]
    (by decide) (by decide) (by decide) (by decide) rfl

/-- C8: the literal matcher pulls exactly one item from the stream (the
remaining stream is always the tail), succeeds exactly when that item is
the expected byte, and otherwise fails with `UnexpectedValue` carrying
the expected byte and the actual byte or its absence. -/
theorem claim8_match_next (expected : Nat) (s : List Nat) :
    match_next expected s =
      (if s.head? = some expected then .ok ()
       else .error (.UnexpectedValue expected s.head?), s.tail) := by
  cases s with
  | nil => simp [match_next]
  | cons b rest =>
    by_cases hb : b = expected
    · subst hb
      simp [match_next]
    · simp [match_next, hb]

/-- C9: a `{}` marker followed by a pattern byte `d` performs a
`d`-delimited capture: `d` is taken from the pattern right after the `}`
and consumed from it, the stream is consumed through the first `d`, and
the pattern continues after `d` without `d` being matched as a separate
literal step; a capture is whitespace-bounded exactly when `{}` ends the
pattern, in which case the capture stops at (and consumes) the first
whitespace byte. -/
theorem claim9_delimiter_from_pattern {τ : Type} (conv : List Nat → Option τ)
    (nm : Nat → String) (d : Nat) (rest raw srest : List Nat) (v : τ)
    (hmem : d ∉ raw) (hval : utf8Valid raw = true) (hconv : conv raw = some v) :
    try_scan conv nm 1 (123 :: 125 :: d :: rest) (raw ++ d :: srest) =
      (match matchTail rest srest with
       | .ok s3 => .ok ([v], s3)
       | .error e => .error e) ∧
    (raw ≠ [] → (∀ b ∈ raw, isWs b = false) → ∀ b2 srest2, isWs b2 = true →
      try_scan conv nm 1 [123, 125] (raw ++ b2 :: srest2) = .ok ([v], srest2)) := by
  constructor
  · have hd : ∀ b ∈ raw, b ≠ d := fun b hb he => hmem (he ▸ hb)
    have hcr := captureRaw_delim_split raw srest hd
    have hslot : scanSlot conv (nm 0) (123 :: 125 :: d :: rest) (raw ++ d :: srest) =
        .ok (v, rest, srest) := by
      rw [scanSlot_cap]
      rw [show (d :: rest).head? = some d from rfl, parse_capture_ok hcr hval hconv]
      rfl
    simp only [try_scan, scanSlots, hslot]
    cases hmt : matchTail rest srest <;> simp [hmt]
  · intro hne hnws b2 srest2 hb2
    have hcr := captureRaw_ws_split raw srest2 b2 hne hnws hb2
    have hslot : scanSlot conv (nm 0) [123, 125] (raw ++ b2 :: srest2) =
        .ok (v, [], srest2) := by
      rw [scanSlot_cap]
      rw [show (([] : List Nat)).head? = none from rfl, parse_capture_ok hcr hval hconv]
      rfl
    simp [try_scan, scanSlots, hslot, matchTail]

/-- C9 (witness). -/
theorem claim9_witness :
    (try_scan (fun l : List Nat => some l) (fun _ => "x") 1 [123, 125, 44, 33]
        ([97] ++ 44 :: [33, 120]) =
      (match matchTail [33] [33, 120] with
       | .ok s3 => .ok ([[97]], s3)
       | .error e => .error e)) ∧
    (([97] : List Nat) ≠ [] → (∀ b ∈ ([97] : List Nat), isWs b = false) →
      ∀ b2 srest2, isWs b2 = true →
      try_scan (fun l : List Nat => some l) (fun _ => "x") 1 [123, 125]
        ([97] ++ b2 :: srest2) = .ok ([[97]], srest2)) :=
  claim9_delimiter_from_pattern (fun l => some l) (fun _ => "x") 44 [33] [97]
    [33, 120] [97] (by decide) (by decide) rfl

/-- C10: after the slots are filled, the trailing pattern is matched one
byte at a time with no brace processing: the trailing match succeeds
(consuming exactly the pattern's length) precisely when the trailing
pattern is a prefix of the remaining stream, and any failure is an
`UnexpectedValue` — never `MissingMatch` or `MissingClosingBrace`. -/
theorem claim10_trailing_literals (p s : List Nat) :
    (matchTail p s = .ok (s.drop p.length) ↔ ∃ t, s = p ++ t) ∧
    (∀ e, matchTail p s = .error e → ∃ exp act, e = .UnexpectedValue exp act) := by
  constructor
  · constructor
    · intro h
      exact ⟨s.drop p.length, matchTail_ok_iff.mp h⟩
    · rintro ⟨t, rfl⟩
      rw [show (p ++ t).drop p.length = t from List.drop_left p t]
      exact matchTail_ok_of_append p t
  · intro e he
    exact matchTail_err he

/-- C10 (witness): the trailing pattern `"{{}"` is matched as three
literal bytes, and a trailing mismatch reports `UnexpectedValue`. -/
theorem claim10_witness :
    matchTail [123, 123, 125] [123, 123, 125, 97] = .ok [97] ∧
    ∃ exp act, Error.UnexpectedValue 125 (some 97) = .UnexpectedValue exp act :=
  ⟨(claim10_trailing_literals [123, 123, 125] [123, 123, 125, 97]).1.mpr ⟨[97], rfl⟩,
   (claim10_trailing_literals [125] [97]).2 (.UnexpectedValue 125 (some 97)) rfl⟩

end TextIO
